import Mathlib

/-!
Verification of the YAML collection library (`src/lib_yaml.py`) of the
propensity-model template repository: the extension classifier
(`FILEextension`), the single-document loader (`read_yaml`) and the
recursive directory collector (`read_yaml_from_dir`).

The Python code is embedded shallowly: the filesystem tree visible to a
call is a value of type `Entry`, a file's byte content is abstracted by
the outcome of `yaml.safe_load` on it (`ReadOutcome`), machine behaviour
of exceptions is modelled with `Except`, and Python `dict` insertion
order is modelled by an insertion-ordered association list.
-/

set_option autoImplicit false

namespace YamlLib

/-! ### YAML values and Python truthiness -/

/-- An in-memory value produced by `yaml.safe_load`: a mapping, sequence or
scalar tree. -/
inductive Val : Type where
  | vnull : Val
  | vbool : Bool → Val
  | vint : Int → Val
  | vstr : String → Val
  | vlist : List Val → Val
  | vmap : List (String × Val) → Val

/-- Python truthiness `bool(v)` of a loaded YAML value: `None`, `False`,
`0`, `""`, `[]` and `{}` are falsy. -/
def Val.truthy : Val → Bool
  | .vnull => false
  | .vbool b => b
  | .vint n => n != 0
  | .vstr s => !s.isEmpty
  | .vlist l => !l.isEmpty
  | .vmap m => !m.isEmpty

/-! ### `pathlib` path components (POSIX semantics) -/

/-- Split a character list at every `/` (raw POSIX component split). -/
def splitSlash : List Char → List (List Char)
  | [] => [[]]
  | c :: cs =>
    match splitSlash cs with
    | [] => [[]]
    | r :: rs => if c = '/' then [] :: r :: rs else (c :: r) :: rs

/-- `pathlib.PurePosixPath(s).name` as a character list: the last path
component after dropping empty and `.` components. -/
def pyNameChars (s : String) : List Char :=
  (((splitSlash s.toList).filter (fun c => !c.isEmpty && c != ['.'])).getLast?).getD []

/-- Split a component at its last dot: `some (st, suf)` with
`name = st ++ suf` and `suf` starting with the last `'.'` of `name`;
`none` when `name` has no dot. -/
def splitLastDot : List Char → Option (List Char × List Char)
  | [] => none
  | c :: cs =>
    match splitLastDot cs with
    | some (st, suf) => some (c :: st, suf)
    | none => if c = '.' then some ([], '.' :: cs) else none

/-- `pathlib.PurePosixPath(s).suffix`: the part of the name from its last
dot on, empty when the last dot is leading (a dotfile), trailing, or
absent. -/
def pySuffix (s : String) : String :=
  match splitLastDot (pyNameChars s) with
  | some (st, suf) => if !st.isEmpty && decide (1 < suf.length) then String.mk suf else ""
  | none => ""

/-- `pathlib.PurePosixPath(s).stem`: the name with `pySuffix` removed. -/
def pyStem (s : String) : String :=
  match splitLastDot (pyNameChars s) with
  | some (st, suf) =>
    if !st.isEmpty && decide (1 < suf.length) then String.mk st
    else String.mk (pyNameChars s)
  | none => String.mk (pyNameChars s)

/-! ### The extension classifier `FILEextension` -/

/-- The two members of the `FILEextension` enum: the recognised YAML kind
(value `('yml', 'yaml')`) and everything else (value `None`). -/
inductive FILEextension : Type where
  | YAMLext : FILEextension
  | OTHERext : FILEextension
deriving DecidableEq

/-- The alias tuple `FILEextension.YAMLext.value = ('yml', 'yaml')`. -/
def FILEextension.yamlAliases : List String := ["yml", "yaml"]

/-- `FILEextension(s)` on a string argument.  No string is a declared enum
value, so the `_missing_` classmethod runs: it returns `YAMLext` when the
string itself is one of the aliases or when `pathlib.Path(s).suffix[1:]`
is, and `OTHERext` otherwise. -/
def FILEextension.ofString (s : String) : FILEextension :=
  if s ∈ yamlAliases ∨ (pySuffix s).drop 1 ∈ yamlAliases then .YAMLext else .OTHERext

/-! ### The filesystem tree seen by one call -/

/-- The outcome of `open(path, 'r')` followed by `yaml.safe_load` on a
regular file: either the parsed value, or an exception (ill-formed
content, or the file cannot be opened/read). -/
inductive ReadOutcome : Type where
  | parsed : Val → ReadOutcome
  | failed : ReadOutcome

/-- A filesystem object: a regular file (with its load outcome) or a
directory with its children in the order `Path.iterdir()` yields them. -/
inductive Entry : Type where
  | file : String → ReadOutcome → Entry
  | dir : String → List Entry → Entry

/-- The base name of a filesystem object. -/
def Entry.name : Entry → String
  | .file n _ => n
  | .dir n _ => n

/-- Exceptions surfaced by the library. -/
inductive Err : Type where
  /-- `YamlIOException(f'{path} is not a YAML')` from `read_yaml`. -/
  | notYaml : String → Err
  /-- An exception raised by `open`/`yaml.safe_load` on the path:
  a parse error or an access error (including `IsADirectoryError`). -/
  | loadFail : String → Err
  /-- `NotADirectoryError` from `Path(path).iterdir()`. -/
  | notADirectory : String → Err
deriving DecidableEq

/-- What `open(path, 'r')` + `yaml.safe_load` produce on a filesystem
object: a file yields its content's outcome; opening a directory for
reading raises (`IsADirectoryError`). -/
def openLoad : Entry → ReadOutcome
  | .file _ r => r
  | .dir _ _ => .failed

/-- `read_yaml(path_to_file)` where `e` is the filesystem object the path
denotes: check the extension, then open and safe-load the file; raise
`YamlIOException` when the extension is not recognised. -/
def read_yaml (path_to_file : String) (e : Entry) : Except Err Val :=
  if FILEextension.ofString path_to_file = .YAMLext then
    match openLoad e with
    | .parsed v => .ok v
    | .failed => .error (.loadFail path_to_file)
  else .error (.notYaml path_to_file)

/-! ### Collections (nested Python dicts) -/

/-- A value stored in the result dictionary: either a loaded YAML document
or the nested dictionary returned for a subdirectory. -/
inductive CVal : Type where
  | leaf : Val → CVal
  | node : List (String × CVal) → CVal

/-- The `collection` dictionary: insertion-ordered string keys. -/
abbrev Collection := List (String × CVal)

/-- Python truthiness `bool(new_item)` of a dictionary value. -/
def CVal.truthy : CVal → Bool
  | .leaf v => v.truthy
  | .node c => !c.isEmpty

/-- Python dict assignment `c[k] = v`: overwrite in place when the key is
present (keeping its position), append otherwise. -/
def dictInsert (c : Collection) (k : String) (v : CVal) : Collection :=
  match c with
  | [] => [(k, v)]
  | (k', v') :: rest => if k' = k then (k, v) :: rest else (k', v') :: dictInsert rest k v

/-- Fold a sequence of dict assignments over a dictionary. -/
def dictInsertAll (c : Collection) (kvs : List (String × CVal)) : Collection :=
  kvs.foldl (fun a kv => dictInsert a kv.1 kv.2) c

/-! ### The recursive collector `read_yaml_from_dir` -/

/-- The `for file_or_dir in Path(path_to_dir).iterdir()` loop of
`read_yaml_from_dir`, over the remaining entries `es`, with the
accumulated `collection` and `failed_yaml`.  Each child's `f_path` is the
directory path joined with the child's name.  A subdirectory is recursed
into only when `max_depth > 0`; otherwise it falls through to the YAML
extension test like any other entry.  A recognised entry is loaded with
`read_yaml`; on an exception, tolerant mode records `f_path` in
`failed_yaml` and continues, strict mode re-raises.  A loaded or recursed
item is stored under the entry's stem only when it is truthy. -/
def readDirAux (on_error_continue : Bool) (path : String) (max_depth : Int)
    (es : List Entry) (collection : Collection) (failed_yaml : List String) :
    Except Err (Collection × List String) :=
  match es with
  | [] => .ok (collection, failed_yaml)
  | .dir name children :: rest =>
    if max_depth > 0 then
      match readDirAux on_error_continue (path ++ "/" ++ name) (max_depth - 1) children [] [] with
      | .error e => .error e
      | .ok (newItem, failedHere) =>
        readDirAux on_error_continue path max_depth rest
          (if CVal.truthy (.node newItem) then dictInsert collection (pyStem name) (.node newItem)
           else collection)
          (failed_yaml ++ failedHere)
    else if FILEextension.ofString (path ++ "/" ++ name) = .YAMLext then
      match read_yaml (path ++ "/" ++ name) (.dir name children) with
      | .ok v =>
        readDirAux on_error_continue path max_depth rest
          (if Val.truthy v then dictInsert collection (pyStem name) (.leaf v) else collection)
          failed_yaml
      | .error e =>
        if on_error_continue then
          readDirAux on_error_continue path max_depth rest collection
            (failed_yaml ++ [path ++ "/" ++ name])
        else .error e
    else readDirAux on_error_continue path max_depth rest collection failed_yaml
  | .file name content :: rest =>
    if FILEextension.ofString (path ++ "/" ++ name) = .YAMLext then
      match read_yaml (path ++ "/" ++ name) (.file name content) with
      | .ok v =>
        readDirAux on_error_continue path max_depth rest
          (if Val.truthy v then dictInsert collection (pyStem name) (.leaf v) else collection)
          failed_yaml
      | .error e =>
        if on_error_continue then
          readDirAux on_error_continue path max_depth rest collection
            (failed_yaml ++ [path ++ "/" ++ name])
        else .error e
    else readDirAux on_error_continue path max_depth rest collection failed_yaml

/-- `read_yaml_from_dir(path_to_dir, on_error_continue, max_depth)` where
`fs` is the filesystem object `path_to_dir` denotes.  `Path.iterdir()`
raises `NotADirectoryError` when the path is not a directory; otherwise
the children are looped over with fresh `collection`/`failed_yaml`. -/
def read_yaml_from_dir (fs : Entry) (path_to_dir : String)
    (on_error_continue : Bool) (max_depth : Int) :
    Except Err (Collection × List String) :=
  match fs with
  | .file _ _ => .error (.notADirectory path_to_dir)
  | .dir _ children => readDirAux on_error_continue path_to_dir max_depth children [] []

/-! ### Spec-level characterizations

The following definitions restate, directly and without error plumbing,
what the spec says the traversal produces; the refinement theorems below
connect them to `read_yaml_from_dir`. -/

/-- The paths of the entries that are recognised as documents during a
traversal of `es` but fail to load, in enumeration order: a failing
recognised file, or (at exhausted depth) a directory whose path carries a
recognised suffix, so that loading it raises; entering a subdirectory
concatenates its failures at the point the subdirectory is visited. -/
def specFailedPaths (path : String) (max_depth : Int) : List Entry → List String
  | [] => []
  | .dir name children :: rest =>
    (if max_depth > 0 then
      specFailedPaths (path ++ "/" ++ name) (max_depth - 1) children
     else if FILEextension.ofString (path ++ "/" ++ name) = .YAMLext then
      [path ++ "/" ++ name]
     else [])
    ++ specFailedPaths path max_depth rest
  | .file name content :: rest =>
    (match content with
     | .failed =>
       if FILEextension.ofString (path ++ "/" ++ name) = .YAMLext then [path ++ "/" ++ name]
       else []
     | .parsed _ => [])
    ++ specFailedPaths path max_depth rest

/-- The sequence of dictionary assignments a tolerant traversal of `es`
performs, in enumeration order: a recognised file that loads to a truthy
value contributes its stem and value; a subdirectory within the depth
budget whose recursive dictionary is non-empty contributes its stem and
that dictionary; everything else contributes nothing. -/
def specContribs (path : String) (max_depth : Int) : List Entry → List (String × CVal)
  | [] => []
  | .dir name children :: rest =>
    (if max_depth > 0 then
      if (dictInsertAll [] (specContribs (path ++ "/" ++ name) (max_depth - 1) children)).isEmpty
      then []
      else [(pyStem name,
             CVal.node (dictInsertAll []
               (specContribs (path ++ "/" ++ name) (max_depth - 1) children)))]
     else [])
    ++ specContribs path max_depth rest
  | .file name content :: rest =>
    (match content with
     | .parsed v =>
       if FILEextension.ofString (path ++ "/" ++ name) = .YAMLext then
         if v.truthy then [(pyStem name, CVal.leaf v)] else []
       else []
     | .failed => [])
    ++ specContribs path max_depth rest

/-- The dictionary a tolerant traversal of `es` returns: the contribution
sequence applied to an empty dictionary. -/
def specCollection (path : String) (max_depth : Int) (es : List Entry) : Collection :=
  dictInsertAll [] (specContribs path max_depth es)

/-- Whether an `Except` result is a normal return (no exception). -/
def isOkResult (r : Except Err (Collection × List String)) : Bool :=
  match r with
  | .ok _ => true
  | .error _ => false

/-- The non-empty-value invariant of a stored dictionary value, at every
nesting level: a loaded document is always admissible, and a nested
dictionary is admissible when each of its values is truthy and itself
admissible. -/
def CVal.clean : CVal → Bool
  | .leaf _ => true
  | .node [] => true
  | .node ((_, v) :: rest) => v.truthy && v.clean && CVal.clean (.node rest)

/-- An entry whose processing by the loop body leaves `collection` and
`failed_yaml` untouched and just moves on: a subdirectory rejected by the
depth budget whose path does not classify as YAML, a file whose path does
not classify as YAML, or a file that loads successfully to a falsy
value. -/
def skipsEntry (path : String) (max_depth : Int) : Entry → Prop
  | .dir name _ =>
    ¬ max_depth > 0 ∧ FILEextension.ofString (path ++ "/" ++ name) = .OTHERext
  | .file name r =>
    FILEextension.ofString (path ++ "/" ++ name) = .OTHERext
      ∨ ∃ v, r = .parsed v ∧ v.truthy = false

/-- Modelled from the spec (claim C5): `extensionOf` extracts the suffix
component after the final dot of the last path component — the bare
extension, without its leading dot, `""` when the last component has no
usable dot. -/
def extensionOf (p : String) : String := (pySuffix p).drop 1

/-! ### Lemmas about path components and the classifier -/

theorem mem_of_mem_splitSlash {l p : List Char} {c : Char}
    (hp : p ∈ splitSlash l) (hc : c ∈ p) : c ∈ l := by
  induction l generalizing p with
  | nil =>
    simp only [splitSlash, List.mem_singleton] at hp
    subst hp; simp at hc
  | cons a as ih =>
    rcases h : splitSlash as with _ | ⟨r, rs⟩
    · simp only [splitSlash, h, List.mem_singleton] at hp
      subst hp; simp at hc
    · simp only [splitSlash, h] at hp
      by_cases ha : a = '/'
      · rw [if_pos ha] at hp
        rcases List.mem_cons.1 hp with h1 | h1
        · subst h1; simp at hc
        · exact List.mem_cons_of_mem a (ih (by rw [h]; exact h1) hc)
      · rw [if_neg ha] at hp
        rcases List.mem_cons.1 hp with h1 | h1
        · subst h1
          rcases List.mem_cons.1 hc with rfl | h2
          · exact List.mem_cons_self _ _
          · exact List.mem_cons_of_mem a
              (ih (by rw [h]; exact List.mem_cons_self r rs) h2)
        · exact List.mem_cons_of_mem a
            (ih (by rw [h]; exact List.mem_cons_of_mem r h1) hc)

theorem mem_of_mem_pyNameChars {s : String} {c : Char}
    (hc : c ∈ pyNameChars s) : c ∈ s.toList := by
  unfold pyNameChars at hc
  rcases h : ((splitSlash s.toList).filter (fun c => !c.isEmpty && c != ['.'])).getLast? with
    _ | ⟨p⟩
  · rw [h] at hc; simp at hc
  · rw [h] at hc
    obtain ⟨hne, hp⟩ := List.mem_getLast?_eq_getLast (Option.mem_def.2 h)
    have hmem : p ∈ (splitSlash s.toList).filter (fun c => !c.isEmpty && c != ['.']) := by
      rw [hp]; exact List.getLast_mem hne
    exact mem_of_mem_splitSlash (List.mem_of_mem_filter hmem) hc

theorem splitLastDot_eq_none {l : List Char} : splitLastDot l = none ↔ '.' ∉ l := by
  induction l with
  | nil => simp [splitLastDot]
  | cons a as ih =>
    simp only [splitLastDot]
    rcases h : splitLastDot as with _ | ⟨st, suf⟩
    · have has : '.' ∉ as := ih.1 h
      by_cases ha : a = '.'
      · simp [ha]
      · simp [ha, has, Ne.symm ha]
    · have has : '.' ∈ as := by
        by_contra hn
        rw [ih.2 hn] at h; exact Option.noConfusion h
      simp [has]

theorem splitLastDot_suffix_shape {l st suf : List Char}
    (h : splitLastDot l = some (st, suf)) : ∃ rest, suf = '.' :: rest ∧ '.' ∉ rest := by
  induction l generalizing st suf with
  | nil => simp [splitLastDot] at h
  | cons a as ih =>
    simp only [splitLastDot] at h
    rcases h' : splitLastDot as with _ | ⟨st', suf'⟩
    · rw [h'] at h
      by_cases ha : a = '.'
      · rw [if_pos ha] at h
        injection h with h
        injection h with h1 h2
        exact ⟨as, h2.symm, splitLastDot_eq_none.1 h'⟩
      · rw [if_neg ha] at h; exact Option.noConfusion h
    · rw [h'] at h
      injection h with h
      injection h with h1 h2
      exact h2 ▸ ih h'

theorem pySuffix_no_dot {s : String} (h : '.' ∉ s.toList) : pySuffix s = "" := by
  unfold pySuffix
  rw [splitLastDot_eq_none.2 (fun hd => h (mem_of_mem_pyNameChars hd))]

theorem pySuffix_shape (s : String) :
    pySuffix s = "" ∨ ∃ rest, pySuffix s = String.mk ('.' :: rest) ∧ '.' ∉ rest := by
  rcases h : splitLastDot (pyNameChars s) with _ | ⟨st, suf⟩
  · left; simp only [pySuffix, h]
  · obtain ⟨rest, hsuf, hrest⟩ := splitLastDot_suffix_shape h
    by_cases hc : (!st.isEmpty && decide (1 < suf.length)) = true
    · right
      exact ⟨rest, by simp only [pySuffix, h, if_pos hc]; rw [hsuf], hrest⟩
    · left; simp only [pySuffix, h, if_neg hc]

theorem extensionOf_no_dot (p : String) : '.' ∉ (extensionOf p).toList := by
  unfold extensionOf
  have hd : ((pySuffix p).drop 1).toList = (pySuffix p).toList.drop 1 :=
    String.data_drop (pySuffix p) 1
  rw [hd]
  rcases pySuffix_shape p with h | ⟨rest, h, hrest⟩
  · rw [h]; simp
  · rw [h]
    show '.' ∉ List.drop 1 ('.' :: rest)
    simpa using hrest

theorem pySuffix_extensionOf (p : String) : pySuffix (extensionOf p) = "" :=
  pySuffix_no_dot (extensionOf_no_dot p)

/-! ### Lemmas about dictionaries -/

theorem dictInsert_ne_nil (c : Collection) (k : String) (v : CVal) :
    dictInsert c k v ≠ [] := by
  cases c with
  | nil => simp [dictInsert]
  | cons kv rest =>
    obtain ⟨k', v'⟩ := kv
    simp only [dictInsert]
    split <;> simp

theorem mem_dictInsert {c : Collection} {k : String} {v : CVal} {kv : String × CVal}
    (h : kv ∈ dictInsert c k v) : kv ∈ c ∨ kv = (k, v) := by
  induction c with
  | nil => simp only [dictInsert, List.mem_singleton] at h; exact Or.inr h
  | cons kv' rest ih =>
    obtain ⟨k', v'⟩ := kv'
    simp only [dictInsert] at h
    by_cases hk : k' = k
    · rw [if_pos hk] at h
      rcases List.mem_cons.1 h with rfl | h1
      · exact Or.inr rfl
      · exact Or.inl (List.mem_cons_of_mem _ h1)
    · rw [if_neg hk] at h
      rcases List.mem_cons.1 h with rfl | h1
      · exact Or.inl (List.mem_cons_self _ _)
      · rcases ih h1 with h2 | h2
        · exact Or.inl (List.mem_cons_of_mem _ h2)
        · exact Or.inr h2

theorem mem_dictInsertAll {acc : Collection} {l : List (String × CVal)}
    {kv : String × CVal} (h : kv ∈ dictInsertAll acc l) : kv ∈ acc ∨ kv ∈ l := by
  induction l generalizing acc with
  | nil => exact Or.inl h
  | cons kv' t ih =>
    have h' : kv ∈ dictInsertAll (dictInsert acc kv'.1 kv'.2) t := h
    rcases ih h' with h1 | h1
    · rcases mem_dictInsert h1 with h2 | h2
      · exact Or.inl h2
      · exact Or.inr (by rw [h2]; exact List.mem_cons_self _ _)
    · exact Or.inr (List.mem_cons_of_mem _ h1)

theorem dictInsertAll_cons (acc : Collection) (k : String) (v : CVal)
    (t : List (String × CVal)) :
    dictInsertAll acc ((k, v) :: t) = dictInsertAll (dictInsert acc k v) t := rfl

theorem dictInsertAll_append (acc : Collection) (x y : List (String × CVal)) :
    dictInsertAll acc (x ++ y) = dictInsertAll (dictInsertAll acc x) y := by
  simp [dictInsertAll, List.foldl_append]

/-! ### Lemmas about the non-empty-value invariant -/

theorem clean_node_iff {c : Collection} :
    CVal.clean (.node c) = true ↔
      ∀ kv ∈ c, kv.2.truthy = true ∧ CVal.clean kv.2 = true := by
  induction c with
  | nil => simp [CVal.clean]
  | cons kv t ih =>
    obtain ⟨k, v⟩ := kv
    rw [show CVal.clean (.node ((k, v) :: t)) =
        (v.truthy && v.clean && CVal.clean (.node t)) from by simp [CVal.clean]]
    simp only [Bool.and_eq_true, ih, List.mem_cons]
    constructor
    · rintro ⟨⟨h1, h2⟩, h3⟩ kv' (rfl | h)
      · exact ⟨h1, h2⟩
      · exact h3 kv' h
    · intro h
      exact ⟨⟨(h (k, v) (Or.inl rfl)).1, (h (k, v) (Or.inl rfl)).2⟩,
        fun kv' h' => h kv' (Or.inr h')⟩

/-! ### The traversal lemmas -/

/-- Tolerant mode: the loop never raises; it returns the accumulated
dictionary extended by the contribution sequence, and the failure log
extended by the failing paths, in enumeration order. -/
theorem readDirAux_tolerant :
    ∀ (path : String) (d : Int) (es : List Entry) (acc : Collection) (f : List String),
    readDirAux true path d es acc f =
      .ok (dictInsertAll acc (specContribs path d es), f ++ specFailedPaths path d es)
  | path, d, [], acc, f => by
    simp [readDirAux, specContribs, specFailedPaths, dictInsertAll]
  | path, d, .dir name children :: rest, acc, f => by
    simp only [readDirAux, specContribs, specFailedPaths]
    by_cases hd : d > 0
    · rw [readDirAux_tolerant (path ++ "/" ++ name) (d - 1) children [] []]
      simp only [hd, if_true]
      rw [readDirAux_tolerant path d rest _ _]
      by_cases hemp :
          (dictInsertAll [] (specContribs (path ++ "/" ++ name) (d - 1) children)).isEmpty
      · simp [CVal.truthy, hemp, dictInsertAll_append, List.append_assoc]
      · simp [CVal.truthy, hemp, dictInsertAll_append, dictInsertAll_cons, List.append_assoc]
    · simp only [hd, if_false]
      by_cases hcl : FILEextension.ofString (path ++ "/" ++ name) = .YAMLext
      · simp only [hcl, if_true, read_yaml, openLoad]
        rw [readDirAux_tolerant path d rest _ _]
        simp [List.append_assoc]
      · simp only [hcl, if_false]
        rw [readDirAux_tolerant path d rest _ _]
        simp
  | path, d, .file name content :: rest, acc, f => by
    cases content with
    | parsed v =>
      simp only [readDirAux, specContribs, specFailedPaths]
      by_cases hcl : FILEextension.ofString (path ++ "/" ++ name) = .YAMLext
      · simp only [hcl, if_true, read_yaml, openLoad]
        rw [readDirAux_tolerant path d rest _ _]
        by_cases hv : v.truthy
        · simp [hcl, hv, dictInsertAll_cons]
        · simp [hcl, hv]
      · simp only [hcl, if_false]
        rw [readDirAux_tolerant path d rest _ _]
        simp [hcl]
    | failed =>
      simp only [readDirAux, specContribs, specFailedPaths]
      by_cases hcl : FILEextension.ofString (path ++ "/" ++ name) = .YAMLext
      · simp only [hcl, if_true, read_yaml, openLoad]
        rw [readDirAux_tolerant path d rest _ _]
        simp [hcl, List.append_assoc]
      · simp only [hcl, if_false]
        rw [readDirAux_tolerant path d rest _ _]
        simp [hcl]

theorem isOkResult_eq_false {r : Except Err (Collection × List String)}
    (h : isOkResult r = false) : ∃ e, r = .error e := by
  cases r with
  | ok p => simp [isOkResult] at h
  | error e => exact ⟨e, rfl⟩

/-- Strict mode: the loop returns normally exactly when no recognised
entry in the traversed region fails to load. -/
theorem readDirAux_strict_isOk :
    ∀ (path : String) (d : Int) (es : List Entry) (acc : Collection) (f : List String),
    isOkResult (readDirAux false path d es acc f) = (specFailedPaths path d es).isEmpty
  | path, d, [], acc, f => by simp [readDirAux, specFailedPaths, isOkResult]
  | path, d, .dir name children :: rest, acc, f => by
    simp only [readDirAux, specFailedPaths]
    by_cases hd : d > 0
    · simp only [hd, if_true]
      cases hrec : readDirAux false (path ++ "/" ++ name) (d - 1) children [] [] with
      | error e =>
        have h1 := readDirAux_strict_isOk (path ++ "/" ++ name) (d - 1) children [] []
        rw [hrec] at h1
        simp only [isOkResult] at h1 ⊢
        cases hsp : specFailedPaths (path ++ "/" ++ name) (d - 1) children with
        | nil => rw [hsp] at h1; simp at h1
        | cons x t => simp
      | ok p =>
        obtain ⟨newItem, failedHere⟩ := p
        have h1 := readDirAux_strict_isOk (path ++ "/" ++ name) (d - 1) children [] []
        rw [hrec] at h1
        simp only [isOkResult] at h1
        rw [readDirAux_strict_isOk path d rest _ _]
        have ha : specFailedPaths (path ++ "/" ++ name) (d - 1) children = [] := by
          cases hsp : specFailedPaths (path ++ "/" ++ name) (d - 1) children with
          | nil => rfl
          | cons x t => rw [hsp] at h1; simp at h1
        rw [ha]; simp
    · simp only [hd, if_false]
      by_cases hcl : FILEextension.ofString (path ++ "/" ++ name) = .YAMLext
      · simp only [hcl, if_true, read_yaml, openLoad]
        simp [isOkResult]
      · simp only [hcl, if_false]
        rw [readDirAux_strict_isOk path d rest _ _]
        simp
  | path, d, .file name content :: rest, acc, f => by
    cases content with
    | parsed v =>
      simp only [readDirAux, specFailedPaths]
      by_cases hcl : FILEextension.ofString (path ++ "/" ++ name) = .YAMLext
      · simp only [hcl, if_true, read_yaml, openLoad]
        rw [readDirAux_strict_isOk path d rest _ _]
        simp
      · simp only [hcl, if_false]
        rw [readDirAux_strict_isOk path d rest _ _]
        simp
    | failed =>
      simp only [readDirAux, specFailedPaths]
      by_cases hcl : FILEextension.ofString (path ++ "/" ++ name) = .YAMLext
      · simp only [hcl, if_true, read_yaml, openLoad]
        simp [isOkResult]
      · simp only [hcl, if_false]
        rw [readDirAux_strict_isOk path d rest _ _]
        simp

/-- When nothing in the traversed region fails, strict and tolerant mode
run identically. -/
theorem readDirAux_strict_eq_tolerant :
    ∀ (path : String) (d : Int) (es : List Entry) (acc : Collection) (f : List String),
    specFailedPaths path d es = [] →
    readDirAux false path d es acc f = readDirAux true path d es acc f
  | path, d, [], acc, f, _ => by simp [readDirAux]
  | path, d, .dir name children :: rest, acc, f, h => by
    by_cases hd : d > 0
    · simp only [specFailedPaths, hd, if_true, List.append_eq_nil] at h
      obtain ⟨h1, h2⟩ := h
      simp only [readDirAux, hd, if_true]
      rw [readDirAux_strict_eq_tolerant (path ++ "/" ++ name) (d - 1) children [] [] h1]
      cases hrec : readDirAux true (path ++ "/" ++ name) (d - 1) children [] [] with
      | error e => rfl
      | ok p =>
        obtain ⟨newItem, failedHere⟩ := p
        exact readDirAux_strict_eq_tolerant path d rest _ _ h2
    · by_cases hcl : FILEextension.ofString (path ++ "/" ++ name) = .YAMLext
      · exfalso
        simp [specFailedPaths, hd, hcl] at h
      · simp only [readDirAux, hd, if_false, hcl, if_false]
        exact readDirAux_strict_eq_tolerant path d rest acc f
          (by simpa [specFailedPaths, hd, hcl] using h)
  | path, d, .file name content :: rest, acc, f, h => by
    cases content with
    | parsed v =>
      simp only [readDirAux]
      by_cases hcl : FILEextension.ofString (path ++ "/" ++ name) = .YAMLext
      · simp only [hcl, if_true, read_yaml, openLoad]
        exact readDirAux_strict_eq_tolerant path d rest _ _
          (by simpa [specFailedPaths] using h)
      · simp only [hcl, if_false]
        exact readDirAux_strict_eq_tolerant path d rest _ _
          (by simpa [specFailedPaths] using h)
    | failed =>
      by_cases hcl : FILEextension.ofString (path ++ "/" ++ name) = .YAMLext
      · exfalso
        simp [specFailedPaths, hcl] at h
      · simp only [readDirAux, hcl, if_false]
        exact readDirAux_strict_eq_tolerant path d rest _ _
          (by simpa [specFailedPaths, hcl] using h)

/-! ### The non-empty-value invariant of the produced dictionaries -/

theorem specContribs_clean :
    ∀ (path : String) (d : Int) (es : List Entry),
    ∀ kv ∈ specContribs path d es, kv.2.truthy = true ∧ CVal.clean kv.2 = true
  | path, d, [] => by simp [specContribs]
  | path, d, .dir name children :: rest => by
    intro kv hkv
    by_cases hd : d > 0
    · simp only [specContribs, hd, if_true, List.mem_append] at hkv
      rcases hkv with h | h
      · by_cases hemp :
            (dictInsertAll [] (specContribs (path ++ "/" ++ name) (d - 1) children)).isEmpty
        · rw [if_pos hemp] at h; simp at h
        · rw [if_neg hemp] at h
          simp only [List.mem_singleton] at h
          subst h
          refine ⟨by simpa [CVal.truthy] using hemp, ?_⟩
          rw [clean_node_iff]
          intro kv' h'
          rcases mem_dictInsertAll h' with h'' | h''
          · simp at h''
          · exact specContribs_clean (path ++ "/" ++ name) (d - 1) children kv' h''
      · exact specContribs_clean path d rest kv h
    · simp only [specContribs, hd, if_false, List.nil_append] at hkv
      exact specContribs_clean path d rest kv hkv
  | path, d, .file name content :: rest => by
    intro kv hkv
    cases content with
    | parsed v =>
      simp only [specContribs, List.mem_append] at hkv
      rcases hkv with h | h
      · by_cases hcl : FILEextension.ofString (path ++ "/" ++ name) = .YAMLext
        · rw [if_pos hcl] at h
          by_cases hv : v.truthy
          · rw [if_pos hv] at h
            simp only [List.mem_singleton] at h
            subst h
            exact ⟨hv, by simp [CVal.clean]⟩
          · rw [if_neg hv] at h; simp at h
        · rw [if_neg hcl] at h; simp at h
      · exact specContribs_clean path d rest kv h
    | failed =>
      simp only [specContribs, List.nil_append] at hkv
      exact specContribs_clean path d rest kv hkv

theorem specCollection_clean (path : String) (d : Int) (es : List Entry) :
    CVal.clean (.node (specCollection path d es)) = true := by
  rw [clean_node_iff]
  intro kv h
  simp only [specCollection] at h
  rcases mem_dictInsertAll h with h1 | h1
  · simp at h1
  · exact specContribs_clean path d es kv h1

/-! ### Congruence and skipping lemmas for the loop -/

theorem other_ne_yaml {s : String} (h : FILEextension.ofString s = .OTHERext) :
    ¬ FILEextension.ofString s = .YAMLext := by
  rw [h]; intro hc; exact FILEextension.noConfusion hc

/-- Processing one entry at the head of the remaining list commutes with
replacing the tail by a tail the loop treats identically. -/
theorem readDirAux_cons_congr {m : Bool} {path : String} {d : Int} {X Y : List Entry}
    (e : Entry)
    (hXY : ∀ acc f, readDirAux m path d X acc f = readDirAux m path d Y acc f)
    (acc : Collection) (f : List String) :
    readDirAux m path d (e :: X) acc f = readDirAux m path d (e :: Y) acc f := by
  cases e with
  | dir name children =>
    simp only [readDirAux]
    by_cases hd : d > 0
    · simp only [hd, if_true]
      cases hrec : readDirAux m (path ++ "/" ++ name) (d - 1) children [] [] with
      | error e => rfl
      | ok p => obtain ⟨ni, fh⟩ := p; exact hXY _ _
    · simp only [hd, if_false]
      by_cases hcl : FILEextension.ofString (path ++ "/" ++ name) = .YAMLext
      · simp only [hcl, if_true, read_yaml, openLoad]
        cases m with
        | true => exact hXY _ _
        | false => rfl
      · simp only [hcl, if_false]; exact hXY _ _
  | file name r =>
    cases r with
    | parsed v =>
      simp only [readDirAux]
      by_cases hcl : FILEextension.ofString (path ++ "/" ++ name) = .YAMLext
      · simp only [hcl, if_true, read_yaml, openLoad]
        exact hXY _ _
      · simp only [hcl, if_false]; exact hXY _ _
    | failed =>
      simp only [readDirAux]
      by_cases hcl : FILEextension.ofString (path ++ "/" ++ name) = .YAMLext
      · simp only [hcl, if_true, read_yaml, openLoad]
        cases m with
        | true => exact hXY _ _
        | false => rfl
      · simp only [hcl, if_false]; exact hXY _ _

/-- An entry the loop body skips can be removed from anywhere in the
child list without changing the result: it contributes neither a
dictionary entry nor a failure record, and raises nothing. -/
theorem readDirAux_skip {m : Bool} {path : String} {d : Int} {e : Entry}
    (he : skipsEntry path d e) :
    ∀ (pre post : List Entry) (acc : Collection) (f : List String),
    readDirAux m path d (pre ++ e :: post) acc f = readDirAux m path d (pre ++ post) acc f := by
  intro pre
  induction pre with
  | nil =>
    intro post acc f
    simp only [List.nil_append]
    cases e with
    | dir name children =>
      obtain ⟨hd, hcl⟩ := he
      have hne := other_ne_yaml hcl
      simp only [readDirAux, hd, if_false, hne]
    | file name r =>
      rcases he with hcl | ⟨v, rfl, hv⟩
      · have hne := other_ne_yaml hcl
        simp only [readDirAux, hne, if_false]
      · simp only [readDirAux]
        by_cases hcl : FILEextension.ofString (path ++ "/" ++ name) = .YAMLext
        · simp [hcl, read_yaml, openLoad, hv]
        · simp only [hcl, if_false]
  | cons e' pre' ih =>
    intro post acc f
    simp only [List.cons_append]
    exact readDirAux_cons_congr e' (fun acc f => ih post acc f) acc f

/-- A non-positive depth budget behaves like any other: the `max_depth > 0`
test is the only use of the budget, so all non-positive budgets coincide. -/
theorem readDirAux_nonpos (m : Bool) (path : String) {d d' : Int}
    (hd : d ≤ 0) (hd' : d' ≤ 0) :
    ∀ (es : List Entry) (acc : Collection) (f : List String),
    readDirAux m path d es acc f = readDirAux m path d' es acc f := by
  intro es
  induction es with
  | nil => intro acc f; simp [readDirAux]
  | cons e rest ih =>
    intro acc f
    have hd0 : ¬ d > 0 := by omega
    have hd0' : ¬ d' > 0 := by omega
    cases e with
    | dir name children =>
      simp only [readDirAux, hd0, hd0', if_false]
      by_cases hcl : FILEextension.ofString (path ++ "/" ++ name) = .YAMLext
      · simp only [hcl, if_true, read_yaml, openLoad]
        cases m with
        | true => exact ih _ _
        | false => rfl
      · simp only [hcl, if_false]; exact ih _ _
    | file name r =>
      cases r with
      | parsed v =>
        simp only [readDirAux]
        by_cases hcl : FILEextension.ofString (path ++ "/" ++ name) = .YAMLext
        · simp only [hcl, if_true, read_yaml, openLoad]; exact ih _ _
        · simp only [hcl, if_false]; exact ih _ _
      | failed =>
        simp only [readDirAux]
        by_cases hcl : FILEextension.ofString (path ++ "/" ++ name) = .YAMLext
        · simp only [hcl, if_true, read_yaml, openLoad]
          cases m with
          | true => exact ih _ _
          | false => rfl
        · simp only [hcl, if_false]; exact ih _ _

/-- A strict-mode call that returns normally encountered no load
failure anywhere in the traversed region. -/
theorem strict_ok_no_failures {path : String} {d : Int} {children : List Entry}
    {c : Collection} {l : List String}
    (h : readDirAux false path d children [] [] = .ok (c, l)) :
    specFailedPaths path d children = [] := by
  have hok : isOkResult (readDirAux false path d children [] []) = true := by rw [h]; rfl
  rw [readDirAux_strict_isOk] at hok
  cases hsp : specFailedPaths path d children with
  | nil => rfl
  | cons x t => rw [hsp] at hok; simp at hok

/-- Whatever the mode, a normally returned pair is exactly the
specification-level collection and failure list of the enumerated tree. -/
theorem result_ok_characterization (m : Bool) {path : String} {d : Int}
    {children : List Entry} {c : Collection} {l : List String}
    (h : readDirAux m path d children [] [] = .ok (c, l)) :
    c = specCollection path d children ∧ l = specFailedPaths path d children := by
  cases m with
  | true =>
    rw [readDirAux_tolerant] at h
    simp only [List.nil_append, Except.ok.injEq, Prod.mk.injEq] at h
    exact ⟨h.1.symm, h.2.symm⟩
  | false =>
    have hsp := strict_ok_no_failures h
    rw [readDirAux_strict_eq_tolerant path d children [] [] hsp, readDirAux_tolerant] at h
    simp only [List.nil_append, Except.ok.injEq, Prod.mk.injEq] at h
    exact ⟨h.1.symm, h.2.symm⟩

/-! ## The claims -/

/-- Claim C1 (strict-mode all-or-nothing): for every directory tree and
every depth budget, when `on_error_continue` is false and some document
recognised during the traversal fails to load (`specFailedPaths`
enumerates exactly those failures), `read_yaml_from_dir` propagates the
exception through every enclosing recursive call to the top-level caller:
the call's value is the exception, so no partial collection and no
failure log is returned. -/
theorem claim_C1_strict_all_or_nothing
    (rootName : String) (children : List Entry) (path : String) (d : Int)
    (h : specFailedPaths path d children ≠ []) :
    ∃ e, read_yaml_from_dir (.dir rootName children) path false d = .error e := by
  apply isOkResult_eq_false
  show isOkResult (readDirAux false path d children [] []) = false
  rw [readDirAux_strict_isOk]
  cases hsp : specFailedPaths path d children with
  | nil => exact absurd hsp h
  | cons x t => simp

theorem claim_C1_strict_all_or_nothing_witness :
    ∃ e, read_yaml_from_dir
        (.dir "cfg" [.file "a.yml" (.parsed (.vint 1)), .file "bad.yml" .failed])
        "/cfg" false 3 = .error e :=
  claim_C1_strict_all_or_nothing "cfg"
    [.file "a.yml" (.parsed (.vint 1)), .file "bad.yml" .failed] "/cfg" 3
    (by simp +decide [specFailedPaths, FILEextension.ofString, pySuffix, pyNameChars,
      splitSlash, splitLastDot])

/-- Claim C2 (tolerant-mode partial success): with `on_error_continue`
true every load failure is caught where it occurs and never propagates
past the call — the call always returns a pair; the failure log is
exactly the paths of the recognised documents that failed, in enumeration
order (`specFailedPaths`), and the returned collection is exactly the one
built from the entries that loaded successfully to non-empty values
(`specCollection`), failing children contributing no key. -/
theorem claim_C2_tolerant_partial_success
    (rootName : String) (children : List Entry) (path : String) (d : Int) :
    read_yaml_from_dir (.dir rootName children) path true d =
      .ok (specCollection path d children, specFailedPaths path d children) := by
  show readDirAux true path d children [] [] = _
  rw [readDirAux_tolerant]
  simp [specCollection]

/-- Claim C3 (non-empty-value invariant): first, every collection a call
returns satisfies, at every nesting level, that a key is present only
with a truthy (non-empty) value; second, in both modes a recognised
document that parses successfully to a falsy (empty) value contributes no
collection entry and no failure-log entry — removing it from the tree
leaves the result unchanged. -/
theorem claim_C3_nonempty_invariant :
    (∀ (fs : Entry) (path : String) (m : Bool) (d : Int) (c : Collection) (l : List String),
      read_yaml_from_dir fs path m d = .ok (c, l) → CVal.clean (.node c) = true) ∧
    (∀ (rootName path fname : String) (m : Bool) (d : Int) (v : Val)
      (pre post : List Entry), v.truthy = false →
      read_yaml_from_dir (.dir rootName (pre ++ .file fname (.parsed v) :: post)) path m d =
        read_yaml_from_dir (.dir rootName (pre ++ post)) path m d) := by
  constructor
  · intro fs path m d c l h
    cases fs with
    | file n r => exact absurd h (by simp [read_yaml_from_dir])
    | dir n children =>
      obtain ⟨hc, -⟩ := result_ok_characterization m h
      rw [hc]
      exact specCollection_clean path d children
  · intro rootName path fname m d v pre post hv
    show readDirAux m path d (pre ++ .file fname (.parsed v) :: post) [] [] =
      readDirAux m path d (pre ++ post) [] []
    exact @readDirAux_skip m path d (.file fname (.parsed v))
      (Or.inr ⟨v, rfl, hv⟩) pre post [] []

theorem claim_C3_nonempty_invariant_witness :
    CVal.clean (.node [("a", CVal.leaf (Val.vint 3))]) = true ∧
    read_yaml_from_dir
        (.dir "cfg" [.file "e.yml" (.parsed (.vmap [])), .file "a.yml" (.parsed (.vint 3))])
        "/cfg" false 3 =
      read_yaml_from_dir (.dir "cfg" [.file "a.yml" (.parsed (.vint 3))]) "/cfg" false 3 :=
  ⟨claim_C3_nonempty_invariant.1 (.dir "cfg" [.file "a.yml" (.parsed (.vint 3))]) "/cfg"
      false 3 [("a", CVal.leaf (Val.vint 3))] []
      (by simp +decide [read_yaml_from_dir, readDirAux, read_yaml, FILEextension.ofString,
        openLoad, pySuffix, pyNameChars, splitSlash, splitLastDot, pyStem, dictInsert,
        Val.truthy]),
   claim_C3_nonempty_invariant.2 "cfg" "/cfg" "e.yml" false 3 (Val.vmap []) []
      [.file "a.yml" (.parsed (.vint 3))] (by decide)⟩

/-- Claim C4 (classifier correctness and totality): `FILEextension` on a
string is a total pure function (the embedding is a total Lean function
translated operation-for-operation from the Python, which raises on no
string, the empty string and dot-free strings included); each of the two
recognised alias strings classifies as the YAML kind, and every other
dot-free (bare suffix) string, the empty string included, classifies as
unrecognised — matching is case-sensitive, so e.g. `"YML"` is
unrecognised. -/
theorem claim_C4_classifier :
    (FILEextension.ofString "yml" = .YAMLext ∧ FILEextension.ofString "yaml" = .YAMLext) ∧
    ∀ s : String, '.' ∉ s.toList → s ∉ FILEextension.yamlAliases →
      FILEextension.ofString s = .OTHERext := by
  refine ⟨⟨by decide, by decide⟩, ?_⟩
  intro s hdot hmem
  unfold FILEextension.ofString
  rw [pySuffix_no_dot hdot]
  have hno : ¬ (s ∈ FILEextension.yamlAliases ∨
      ("" : String).drop 1 ∈ FILEextension.yamlAliases) := by
    rintro (h | h)
    · exact hmem h
    · revert h; decide
  rw [if_neg hno]

theorem claim_C4_classifier_witness :
    FILEextension.ofString "YML" = .OTHERext ∧ FILEextension.ofString "" = .OTHERext :=
  ⟨claim_C4_classifier.2 "YML" (by decide) (by decide),
   claim_C4_classifier.2 "" (by decide) (by decide)⟩

/-- Claim C5, counterexample: the claimed agreement
`classify p = classify (extensionOf p)` for every path string fails at
`p = "yml"`: the bare alias itself classifies as YAML through the
first membership test, while its extension component is empty and
classifies as unrecognised. -/
theorem claim_C5_counterexample :
    FILEextension.ofString "yml" ≠ FILEextension.ofString (extensionOf "yml") := by
  decide

/-- Claim C5 as amended: for every path string that is not itself one of
the two bare alias strings, the classifier agrees on the full path and on
its extracted extension. -/
theorem claim_C5_agreement_amended (p : String)
    (hp : p ∉ FILEextension.yamlAliases) :
    FILEextension.ofString p = FILEextension.ofString (extensionOf p) := by
  unfold FILEextension.ofString
  rw [pySuffix_extensionOf]
  have hxdef : extensionOf p = (pySuffix p).drop 1 := rfl
  by_cases hx : (pySuffix p).drop 1 ∈ FILEextension.yamlAliases
  · have hx' : extensionOf p ∈ FILEextension.yamlAliases := by rw [hxdef]; exact hx
    rw [if_pos (Or.inr hx), if_pos (Or.inl hx')]
  · have hL : ¬ (p ∈ FILEextension.yamlAliases ∨
        (pySuffix p).drop 1 ∈ FILEextension.yamlAliases) := by
      rintro (h | h)
      · exact hp h
      · exact hx h
    have hR : ¬ (extensionOf p ∈ FILEextension.yamlAliases ∨
        ("" : String).drop 1 ∈ FILEextension.yamlAliases) := by
      rintro (h | h)
      · rw [hxdef] at h; exact hx h
      · revert h; decide
    rw [if_neg hL, if_neg hR]

theorem claim_C5_agreement_amended_witness :
    FILEextension.ofString "/a/b.yaml" = FILEextension.ofString (extensionOf "/a/b.yaml") :=
  claim_C5_agreement_amended "/a/b.yaml" (by decide)

/-- Claim C6 (negative depth budget): a negative `max_depth` behaves
exactly as `max_depth = 0` for every tree and mode — the only use of the
budget is the `max_depth > 0` test, so no subdirectory is traversed and
recognised files at the current level are still processed; a negative
value is not unbounded recursion. -/
theorem claim_C6_negative_depth (fs : Entry) (path : String) (m : Bool) {d : Int}
    (hd : d < 0) :
    read_yaml_from_dir fs path m d = read_yaml_from_dir fs path m 0 := by
  cases fs with
  | file n r => rfl
  | dir n children =>
    show readDirAux m path d children [] [] = readDirAux m path 0 children [] []
    exact readDirAux_nonpos m path (le_of_lt hd) (le_refl 0) children [] []

theorem claim_C6_negative_depth_witness :
    read_yaml_from_dir (.dir "cfg" [.dir "sub" [.file "a.yml" (.parsed (.vint 1))]])
        "/cfg" false (-2) =
      read_yaml_from_dir (.dir "cfg" [.dir "sub" [.file "a.yml" (.parsed (.vint 1))]])
        "/cfg" false 0 :=
  claim_C6_negative_depth _ "/cfg" false (by decide)

/-- Claim C7, counterexample: at `max_depth = 0` a child directory is not
silently excluded regardless of its name — a directory named `c.yml`
falls through to the extension test, classifies as YAML, the loader is
invoked on it and fails (a directory cannot be opened for reading), and
in strict mode the whole call raises, where the claim requires no entry,
no failure record and no error. -/
theorem claim_C7_counterexample :
    read_yaml_from_dir (.dir "root" [.dir "c.yml" []]) "/r" false 0 =
      .error (.loadFail "/r/c.yml") := by
  simp +decide [read_yaml_from_dir, readDirAux, read_yaml, FILEextension.ofString,
    openLoad, pySuffix, pyNameChars, splitSlash, splitLastDot]

/-- Claim C7 as amended: at `max_depth = 0` a child directory is never
traversed and never yields a collection entry; it is silently excluded
(no failure record, no error) whenever its path does not classify as a
recognised document, but a directory whose path does classify as YAML is
handed to the loader, which fails — raising in strict mode. -/
theorem claim_C7_depth_zero_amended :
    (∀ (rootName path name : String) (cs : List Entry) (m : Bool)
      (pre post : List Entry),
      FILEextension.ofString (path ++ "/" ++ name) = .OTHERext →
      read_yaml_from_dir (.dir rootName (pre ++ .dir name cs :: post)) path m 0 =
        read_yaml_from_dir (.dir rootName (pre ++ post)) path m 0) ∧
    (∀ (rootName path name : String) (cs rest : List Entry),
      FILEextension.ofString (path ++ "/" ++ name) = .YAMLext →
      read_yaml_from_dir (.dir rootName (.dir name cs :: rest)) path false 0 =
        .error (.loadFail (path ++ "/" ++ name))) := by
  constructor
  · intro rootName path name cs m pre post hcl
    show readDirAux m path 0 (pre ++ .dir name cs :: post) [] [] =
      readDirAux m path 0 (pre ++ post) [] []
    exact @readDirAux_skip m path 0 (.dir name cs) ⟨by omega, hcl⟩ pre post [] []
  · intro rootName path name cs rest hcl
    show readDirAux false path 0 (.dir name cs :: rest) [] [] = _
    simp [readDirAux, hcl, read_yaml, openLoad]

theorem claim_C7_depth_zero_amended_witness :
    read_yaml_from_dir
        (.dir "root" [.dir "sub" [], .file "a.yml" (.parsed (.vint 1))]) "/r" false 0 =
      read_yaml_from_dir (.dir "root" [.file "a.yml" (.parsed (.vint 1))]) "/r" false 0 ∧
    read_yaml_from_dir (.dir "root" [.dir "d.yaml" []]) "/r" false 0 =
      .error (.loadFail "/r/d.yaml") :=
  ⟨claim_C7_depth_zero_amended.1 "root" "/r" "sub" [] false []
      [.file "a.yml" (.parsed (.vint 1))] (by decide),
   claim_C7_depth_zero_amended.2 "root" "/r" "d.yaml" [] [] (by decide)⟩

/-- Claim C8: the spec requires a single-file root to be a distinct entry
point that loads the file directly; the code instead hands every root to
`Path.iterdir()`, which raises `NotADirectoryError` on a file — here
evaluated on a well-formed single-file root, where the docstring
("Path to folder/yaml file") promises a loaded collection. -/
theorem claim_C8_single_file_root :
    read_yaml_from_dir (.file "a.yml" (.parsed (.vmap [("x", .vint 1)])))
        "/cfg/a.yml" false 3 =
      .error (.notADirectory "/cfg/a.yml") := rfl

/-- Claim C9, counterexample: enumeration is not made deterministic
independently of the filesystem's native order — the same two well-formed
files visited in the two possible `iterdir()` orders produce structurally
different collections (key order differs), so the claimed
order-independence fails. -/
theorem claim_C9_counterexample :
    read_yaml_from_dir
        (.dir "cfg" [.file "a.yml" (.parsed (.vint 1)), .file "b.yml" (.parsed (.vint 2))])
        "/cfg" true 3 =
      .ok ([("a", .leaf (.vint 1)), ("b", .leaf (.vint 2))], []) ∧
    read_yaml_from_dir
        (.dir "cfg" [.file "b.yml" (.parsed (.vint 2)), .file "a.yml" (.parsed (.vint 1))])
        "/cfg" true 3 =
      .ok ([("b", .leaf (.vint 2)), ("a", .leaf (.vint 1))], []) ∧
    read_yaml_from_dir
        (.dir "cfg" [.file "a.yml" (.parsed (.vint 1)), .file "b.yml" (.parsed (.vint 2))])
        "/cfg" true 3 ≠
      read_yaml_from_dir
        (.dir "cfg" [.file "b.yml" (.parsed (.vint 2)), .file "a.yml" (.parsed (.vint 1))])
        "/cfg" true 3 := by
  have e1 : read_yaml_from_dir
      (.dir "cfg" [.file "a.yml" (.parsed (.vint 1)), .file "b.yml" (.parsed (.vint 2))])
      "/cfg" true 3 =
      .ok ([("a", .leaf (.vint 1)), ("b", .leaf (.vint 2))], []) := by
    simp +decide [read_yaml_from_dir, readDirAux, read_yaml, FILEextension.ofString,
      openLoad, pySuffix, pyNameChars, splitSlash, splitLastDot, pyStem, dictInsert,
      Val.truthy]
  have e2 : read_yaml_from_dir
      (.dir "cfg" [.file "b.yml" (.parsed (.vint 2)), .file "a.yml" (.parsed (.vint 1))])
      "/cfg" true 3 =
      .ok ([("b", .leaf (.vint 2)), ("a", .leaf (.vint 1))], []) := by
    simp +decide [read_yaml_from_dir, readDirAux, read_yaml, FILEextension.ofString,
      openLoad, pySuffix, pyNameChars, splitSlash, splitLastDot, pyStem, dictInsert,
      Val.truthy]
  refine ⟨e1, e2, ?_⟩
  rw [e1, e2]
  intro h
  simp at h

/-- Claim C9 as amended: enumeration follows the filesystem's native
`iterdir()` order, and given that order the call is fully reproducible —
whenever a pair is returned (either mode), the collection and failure log
are exactly the ones determined by the enumerated tree, keys and failure
paths in enumeration order; what fails in the original claim is only the
independence from the native order. -/
theorem claim_C9_determinism_amended
    (rootName : String) (children : List Entry) (path : String) (m : Bool) (d : Int)
    (c : Collection) (l : List String)
    (h : read_yaml_from_dir (.dir rootName children) path m d = .ok (c, l)) :
    c = specCollection path d children ∧ l = specFailedPaths path d children :=
  result_ok_characterization m h

theorem claim_C9_determinism_amended_witness :
    ([("a", CVal.leaf (Val.vint 1))] : Collection) =
        specCollection "/cfg" 3 [.file "a.yml" (.parsed (.vint 1))] ∧
    ([] : List String) = specFailedPaths "/cfg" 3 [.file "a.yml" (.parsed (.vint 1))] :=
  claim_C9_determinism_amended "cfg" [.file "a.yml" (.parsed (.vint 1))] "/cfg" true 3
    [("a", CVal.leaf (Val.vint 1))] []
    (by simp +decide [read_yaml_from_dir, readDirAux, read_yaml, FILEextension.ofString,
      openLoad, pySuffix, pyNameChars, splitSlash, splitLastDot, pyStem, dictInsert,
      Val.truthy])

/-- Claim C10: the loader evaluated at a failing input — a recognised
path whose content is ill-formed — propagates the parse failure; the
resource-release part of the claim is settled by inspection of the
source, which calls `yaml.safe_load(open(path_to_file, 'r'))` with no
`with` block, `close()` or `finally`, so the handle is not released
before the exception propagates. -/
theorem claim_C10_loader_parse_failure :
    read_yaml "/cfg/bad.yml" (.file "bad.yml" .failed) =
      .error (.loadFail "/cfg/bad.yml") := rfl

end YamlLib
